import Mathlib

/-!
Verification of the adaptive weighted round-robin load balancer
(`dynlb-go`): a shallow embedding in Lean 4 of the interleaved WRR
selector (`internal/rr/roundrobin.go`) and of the dispatcher / capacity
estimator (`lb/lb.go`), together with theorems settling the spec's
claims about them.

Modelling conventions:
* Go `int` values (weights, rounds, round cursor) are `ℤ`; the index
  cursor and loop/fuel counters are `ℕ`.
* Go `float64` arithmetic is modelled exactly over `ℚ` (the constants
  0.1, 0.99 and the defaults are the exact rationals the literals denote).
* Unbounded Go `for` loops are given a fuel parameter; `none` means the
  loop has not finished within the given fuel (or, where noted, that the
  Go code panics).
* The atomic counters `calls[i]`/`rejections[i]` are `ℕ` (the program
  only ever increments them and resets them to zero).
-/

namespace RR

/-- State of `rr.WeightedRoundRobin` (roundrobin.go): the weight vector,
`rounds` (= max weight after `UpdateWeights`), and the cursor pair
`currIndex`, `currRound` of the interleaved round robin. -/
structure WeightedRoundRobin where
  weights : List ℤ
  rounds : ℤ
  currIndex : ℕ
  currRound : ℤ
deriving DecidableEq, Repr

/-- Embedding of `rr.NewWeightedRoundRobin`: all cursor state starts at
zero, and `rounds` starts at 0 (it is only recomputed by `UpdateWeights`). -/
def NewWeightedRoundRobin (weights : List ℤ) : WeightedRoundRobin :=
  { weights := weights, rounds := 0, currIndex := 0, currRound := 0 }

/-- Embedding of `(*WeightedRoundRobin).advanceIndex`: increment
`currIndex`; on wrap past the end, reset it to 0 and increment
`currRound`, resetting `currRound` to 1 once it exceeds `rounds`. -/
def advanceIndex (r : WeightedRoundRobin) : WeightedRoundRobin :=
  let i := r.currIndex + 1
  if i ≥ r.weights.length then
    let round := r.currRound + 1
    { weights := r.weights, rounds := r.rounds, currIndex := 0,
      currRound := if round > r.rounds then 1 else round }
  else
    { weights := r.weights, rounds := r.rounds, currIndex := i,
      currRound := r.currRound }

/-- Embedding of `(*WeightedRoundRobin).Dispatch` with explicit fuel for
the unbounded scan loop: skip cursor positions whose weight is below the
current round, then emit the current index and advance once more.
`none` means the scan did not finish within `fuel` steps (the Go loop
would still be running), or that the index read `r.weights[r.currIndex]`
is out of range (the Go code would panic). -/
def dispatchFuel : ℕ → WeightedRoundRobin → Option (ℕ × WeightedRoundRobin)
  | 0, _ => none
  | fuel + 1, r =>
    (r.weights[r.currIndex]?).bind fun wv =>
      if wv ≥ r.currRound then some (r.currIndex, advanceIndex r)
      else dispatchFuel fuel (advanceIndex r)

/-- Run `Dispatch` `k` times (each call with the given fuel), collecting
the emitted indices in order together with the final selector state. -/
def dispatchN : ℕ → WeightedRoundRobin → ℕ → Option (List ℕ × WeightedRoundRobin)
  | 0, r, _ => some ([], r)
  | k + 1, r, fuel =>
    (dispatchFuel fuel r).bind fun ir =>
      (dispatchN k ir.2 fuel).bind fun lrf => some (ir.1 :: lrf.1, lrf.2)

/-- Embedding of Go's `slices.Max` on `[]int`: `none` models the panic
on an empty slice. -/
def slicesMax : List ℤ → Option ℤ
  | [] => none
  | x :: xs => some (xs.foldl max x)

/-- Embedding of `(*WeightedRoundRobin).UpdateWeights`: install the new
weight vector and set `rounds` to its maximum; `none` models the
`slices.Max` panic when the new vector is empty. -/
def UpdateWeights (r : WeightedRoundRobin) (w : List ℤ) : Option WeightedRoundRobin :=
  (slicesMax w).map fun m =>
    { weights := w, rounds := m, currIndex := r.currIndex, currRound := r.currRound }

end RR

namespace RR

example : dispatchN 2 (NewWeightedRoundRobin [0, 0]) 5 =
    some ([0, 1], ⟨[0, 0], 0, 0, 1⟩) := by decide

example : dispatchN 8 ⟨[1, 5, 2], 5, 0, 1⟩ 20 =
    some ([0, 1, 2, 1, 2, 1, 1, 1], ⟨[1, 5, 2], 5, 2, 5⟩) := by decide

example : dispatchN 3 (NewWeightedRoundRobin [0, 3, 0]) 1 =
    some ([0, 1, 2], ⟨[0, 3, 0], 0, 0, 1⟩) := by decide

end RR

namespace RR

/-- Successor of a division step: when `p % N + 1 = N`, the successor
wraps to residue 0 and the quotient increments. -/
theorem mod_succ_wrap {N p : ℕ} (hN : 0 < N) (h : p % N + 1 = N) :
    (p + 1) % N = 0 ∧ (p + 1) / N = p / N + 1 := by
  have h1 := Nat.div_add_mod p N
  have hp : p + 1 = N * (p / N) + N := by omega
  have hp' : p + 1 = N * (p / N + 1) := by rw [Nat.mul_succ]; omega
  constructor
  · rw [hp', Nat.mul_mod_right]
  · rw [hp', Nat.mul_div_cancel_left _ hN]

/-- Successor of a division step: when `p % N + 1 < N`, the successor
keeps the quotient and increments the residue. -/
theorem mod_succ_step {N p : ℕ} (hN : 0 < N) (h : p % N + 1 < N) :
    (p + 1) % N = p % N + 1 ∧ (p + 1) / N = p / N := by
  have h1 := Nat.div_add_mod p N
  have hp : p + 1 = N * (p / N) + (p % N + 1) := by omega
  constructor
  · rw [hp, Nat.mul_add_mod, Nat.mod_eq_of_lt h]
  · rw [hp, Nat.mul_add_div hN, Nat.div_eq_of_lt h, Nat.add_zero]

/-- Cursor state of the selector in steady state, indexed by an absolute
scan position `p`: index `p % N`, round `(p / N) % rounds + 1`. -/
def posState (w : List ℤ) (M : ℤ) (p : ℕ) : WeightedRoundRobin :=
  { weights := w, rounds := M, currIndex := p % w.length,
    currRound := ((p / w.length) % M.toNat : ℕ) + 1 }

/-- Scan position `p` is an emission position: the weight at its index
is at least its round. -/
def validB (w : List ℤ) (M : ℤ) (p : ℕ) : Bool :=
  decide ((((p / w.length) % M.toNat : ℕ) : ℤ) + 1 ≤ w.getD (p % w.length) 0)

/-- `advanceIndex` moves the steady-state cursor to the next scan
position. -/
theorem advance_posState (w : List ℤ) (M : ℤ) (hN : 0 < w.length) (hM : 1 ≤ M)
    (p : ℕ) : advanceIndex (posState w M p) = posState w M (p + 1) := by
  have hR0 : 0 < M.toNat := by omega
  have hq : p % w.length < w.length := Nat.mod_lt _ hN
  unfold posState advanceIndex
  by_cases hwrap : p % w.length + 1 ≥ w.length
  · have heq : p % w.length + 1 = w.length := by omega
    obtain ⟨hm, hd⟩ := mod_succ_wrap hN heq
    rw [if_pos hwrap, hm, hd]
    simp only [WeightedRoundRobin.mk.injEq]
    refine ⟨trivial, trivial, trivial, ?_⟩
    have hbR : p / w.length % M.toNat < M.toNat := Nat.mod_lt _ hR0
    by_cases hlast : p / w.length % M.toNat + 1 = M.toNat
    · have h0 : (p / w.length + 1) % M.toNat = 0 := (mod_succ_wrap hR0 hlast).1
      rw [h0]
      have hc : ((p / w.length % M.toNat : ℕ) : ℤ) + 1 + 1 > M := by omega
      rw [if_pos hc]
      simp
    · have hlt : p / w.length % M.toNat + 1 < M.toNat := by omega
      have h1 : (p / w.length + 1) % M.toNat = p / w.length % M.toNat + 1 :=
        (mod_succ_step hR0 hlt).1
      rw [h1]
      have hc : ¬(((p / w.length % M.toNat : ℕ) : ℤ) + 1 + 1 > M) := by omega
      rw [if_neg hc]
      push_cast
      ring
  · have hlt : p % w.length + 1 < w.length := by omega
    obtain ⟨hm, hd⟩ := mod_succ_step hN hlt
    rw [if_neg hwrap, hm, hd]

end RR


namespace RR

/-- The seed of a `foldl max` is a lower bound of the result. -/
theorem le_foldl_max : ∀ (l : List ℤ) (b : ℤ), b ≤ l.foldl max b := by
  intro l
  induction l with
  | nil => intro b; exact le_refl b
  | cons x xs ih => intro b; exact le_trans (le_max_left b x) (ih (max b x))

/-- A `foldl max` result is the seed or one of the list's elements. -/
theorem foldl_max_mem : ∀ (l : List ℤ) (b : ℤ), l.foldl max b = b ∨ l.foldl max b ∈ l := by
  intro l
  induction l with
  | nil => intro b; left; rfl
  | cons x xs ih =>
    intro b
    rcases ih (max b x) with h | h
    · rcases le_total b x with hbx | hxb
      · right
        rw [List.foldl_cons, h, max_eq_right hbx]
        exact List.mem_cons_self x xs
      · left
        rw [List.foldl_cons, h, max_eq_left hxb]
    · right
      exact List.mem_cons_of_mem x h

/-- Every element of the list is bounded by its `foldl max`. -/
theorem mem_le_foldl_max : ∀ (l : List ℤ) (b y : ℤ), y ∈ l → y ≤ l.foldl max b := by
  intro l
  induction l with
  | nil => intro b y hy; cases hy
  | cons x xs ih =>
    intro b y hy
    rcases List.mem_cons.mp hy with h | h
    · subst h
      exact le_trans (le_max_right b y) (le_foldl_max xs (max b y))
    · exact ih (max b x) y h

/-- Characterization of `slicesMax`: on a nonempty list it returns a
member that bounds every element. -/
theorem slicesMax_spec {l : List ℤ} {m : ℤ} (h : slicesMax l = some m) :
    m ∈ l ∧ ∀ y ∈ l, y ≤ m := by
  cases l with
  | nil => cases h
  | cons x xs =>
    have hm : xs.foldl max x = m := Option.some.inj h
    subst hm
    constructor
    · rcases foldl_max_mem xs x with h' | h'
      · rw [h']; exact List.mem_cons_self x xs
      · exact List.mem_cons_of_mem x h'
    · intro y hy
      rcases List.mem_cons.mp hy with h' | h'
      · subst h'; exact le_foldl_max xs y
      · exact mem_le_foldl_max xs x y h'

/-- `Dispatch` from steady-state position `p` finds the first emission
position `q ≥ p` (provided it lies within the fuel bound): it emits
`q`'s slot index and leaves the cursor at position `q + 1`. -/
theorem dispatchFuel_posState (w : List ℤ) (M : ℤ) (hN : 0 < w.length) (hM : 1 ≤ M) :
    ∀ (f p q : ℕ), p ≤ q → q < p + f → validB w M q = true →
      (∀ j, p ≤ j → j < q → validB w M j = false) →
      dispatchFuel f (posState w M p) = some (q % w.length, posState w M (q + 1)) := by
  intro f
  induction f with
  | zero =>
    intro p q hpq hlt _ _
    exact absurd hlt (by omega)
  | succ f ih =>
    intro p q hpq hlt hv hmin
    have hpl : p % w.length < w.length := Nat.mod_lt _ hN
    have hsome : w[p % w.length]? = some (w.getD (p % w.length) 0) := by
      rw [List.getElem?_eq_getElem hpl, List.getD_eq_getElem w 0 hpl]
    rw [dispatchFuel]
    have hw : (posState w M p).weights = w := rfl
    have hi : (posState w M p).currIndex = p % w.length := rfl
    have hr : (posState w M p).currRound = ((p / w.length % M.toNat : ℕ) : ℤ) + 1 := rfl
    rw [hw, hi, hr, hsome, Option.some_bind]
    by_cases hvp : validB w M p = true
    · have hq : q = p := by
        rcases Nat.eq_or_lt_of_le hpq with h | h
        · exact h.symm
        · exact absurd hvp (by rw [hmin p (le_refl p) h]; simp)
      subst hq
      have hcond : w.getD (q % w.length) 0 ≥ ((q / w.length % M.toNat : ℕ) : ℤ) + 1 :=
        of_decide_eq_true hvp
      rw [if_pos hcond, advance_posState w M hN hM q]
    · have hplt : p < q := by
        rcases Nat.eq_or_lt_of_le hpq with h | h
        · exact absurd (by rw [h]; exact hv) hvp
        · exact h
      have hcond : ¬(w.getD (p % w.length) 0 ≥ ((p / w.length % M.toNat : ℕ) : ℤ) + 1) :=
        fun hc => hvp (decide_eq_true hc)
      rw [if_neg hcond, advance_posState w M hN hM p]
      exact ih (p + 1) q hplt (by omega) hv (fun j hj1 hj2 => hmin j (by omega) hj2)

end RR

namespace RR

/-- The emission positions (in scan order) among the `m` consecutive
scan positions starting at `p`. -/
def validList (w : List ℤ) (M : ℤ) (p m : ℕ) : List ℕ :=
  (List.range' p m).filter (validB w M)

/-- Walking the selector: starting at steady-state position `p`, one
`Dispatch` call per emission position among the next `m` scan positions
emits exactly those positions' slot indices, in scan order. -/
theorem dispatchN_posState (w : List ℤ) (M : ℤ) (hN : 0 < w.length) (hM : 1 ≤ M) :
    ∀ (m p : ℕ), m ≤ w.length * M.toNat →
      ∃ s', dispatchN (validList w M p m).length (posState w M p) (w.length * M.toNat) =
        some ((validList w M p m).map (fun q => q % w.length), s') := by
  intro m
  induction m using Nat.strong_induction_on with
  | _ m ih =>
    intro p hm
    by_cases hall : ∀ j, p ≤ j → j < p + m → validB w M j = false
    · have hnil : validList w M p m = [] := by
        apply List.filter_eq_nil.mpr
        intro a ha
        have hmem := List.mem_range'_1.mp ha
        rw [hall a hmem.1 hmem.2]
        simp
      rw [hnil]
      exact ⟨posState w M p, rfl⟩
    · push_neg at hall
      obtain ⟨j, hj1, hj2, hj3⟩ := hall
      simp only [ne_eq, Bool.not_eq_false] at hj3
      have hPex : ∃ n, validB w M (p + n) = true :=
        ⟨j - p, by rwa [Nat.add_sub_cancel' hj1]⟩
      have hqv : validB w M (p + Nat.find hPex) = true := Nat.find_spec hPex
      set q := p + Nat.find hPex with hqdef
      have hqle : q ≤ j := by
        have := Nat.find_min' hPex (m := j - p) (by rwa [Nat.add_sub_cancel' hj1])
        omega
      have hqlt : q < p + m := by omega
      have hqmin : ∀ i, p ≤ i → i < q → validB w M i = false := by
        intro i hi1 hi2
        have hfm := Nat.find_min hPex (m := i - p) (by omega)
        rw [Nat.add_sub_cancel' hi1] at hfm
        cases hb : validB w M i
        · rfl
        · exact absurd hb hfm
      have hsplit : validList w M p m = q :: validList w M (q + 1) (p + m - (q + 1)) := by
        unfold validList
        have e1 := List.range'_append p (q - p) (m - (q - p)) 1
        rw [one_mul] at e1
        rw [show p + (q - p) = q by omega] at e1
        rw [show m - (q - p) + (q - p) = m by omega] at e1
        rw [← e1, List.filter_append]
        have hnil1 : (List.range' p (q - p)).filter (validB w M) = [] := by
          apply List.filter_eq_nil.mpr
          intro a ha
          have hmem := List.mem_range'_1.mp ha
          rw [hqmin a hmem.1 (by omega)]
          simp
        rw [hnil1, List.nil_append]
        rw [show m - (q - p) = (p + m - (q + 1)) + 1 by omega, List.range'_succ]
        rw [List.filter_cons_of_pos hqv]
      rw [hsplit, List.length_cons, List.map_cons]
      rw [dispatchN]
      rw [dispatchFuel_posState w M hN hM (w.length * M.toNat) p q (by omega) (by omega)
        hqv hqmin]
      rw [Option.some_bind]
      obtain ⟨s', hs'⟩ := ih (p + m - (q + 1)) (by omega) (q + 1) (by omega)
      rw [hs', Option.some_bind]
      exact ⟨s', rfl⟩

end RR

namespace RR

/-- Slot indices emitted in round `r + 1` of a full cycle: the slots
whose weight is at least `r + 1`, in slot order. -/
def roundBlock (w : List ℤ) (r : ℕ) : List ℕ :=
  (List.range w.length).filter (fun i => decide ((r : ℤ) + 1 ≤ w.getD i 0))

/-- The emission sequence of one full cycle of the selector under
weights `w` with `rounds = M`, starting at slot 0 of round 1. -/
def cycleList (w : List ℤ) (M : ℤ) : List ℕ :=
  (validList w M 0 (w.length * M.toNat)).map (fun q => q % w.length)

/-- Within the first `N * rounds` scan positions the round cursor never
wraps, so validity needs no modulus on the round. -/
theorem validB_eq_simple (w : List ℤ) (M : ℤ) (p : ℕ) (hp : p < w.length * M.toNat) :
    validB w M p = decide (((p / w.length : ℕ) : ℤ) + 1 ≤ w.getD (p % w.length) 0) := by
  have hd : p / w.length < M.toNat := Nat.div_lt_of_lt_mul hp
  unfold validB
  rw [Nat.mod_eq_of_lt hd]

/-- Chunking the scan positions round by round: filtering the first
`N * K` positions and projecting to slots yields the concatenation of
the first `K` round blocks. -/
theorem filter_simple_chunks (w : List ℤ) (hN : 0 < w.length) :
    ∀ K, ((List.range' 0 (w.length * K)).filter
        (fun p => decide (((p / w.length : ℕ) : ℤ) + 1 ≤ w.getD (p % w.length) 0))).map
          (fun q => q % w.length) =
      (List.range K).flatMap (roundBlock w) := by
  intro K
  induction K with
  | zero => simp
  | succ K ihK =>
    have e1 := List.range'_append 0 (w.length * K) w.length 1
    rw [one_mul, Nat.zero_add] at e1
    rw [show w.length * (K + 1) = w.length + w.length * K by ring, ← e1,
      List.filter_append, List.map_append, ihK, List.range_succ, List.flatMap_append,
      List.flatMap_singleton]
    congr 1
    rw [List.range'_eq_map_range, List.filter_map, List.map_map]
    have hpred : ∀ i ∈ List.range w.length,
        ((fun p => decide (((p / w.length : ℕ) : ℤ) + 1 ≤ w.getD (p % w.length) 0)) ∘
          (fun x => w.length * K + x)) i = (fun i => decide ((K : ℤ) + 1 ≤ w.getD i 0)) i := by
      intro i hi
      have hiN : i < w.length := List.mem_range.mp hi
      simp only [Function.comp]
      rw [Nat.mul_add_div hN, Nat.div_eq_of_lt hiN, Nat.add_zero,
        Nat.mul_add_mod, Nat.mod_eq_of_lt hiN]
    rw [List.filter_congr hpred]
    have hmapc : ∀ i ∈ (List.range w.length).filter (fun i => decide ((K : ℤ) + 1 ≤ w.getD i 0)),
        ((fun q => q % w.length) ∘ (fun x => w.length * K + x)) i = id i := by
      intro i hi
      have hiN : i < w.length := List.mem_range.mp (List.mem_of_mem_filter hi)
      simp only [Function.comp, id]
      rw [Nat.mul_add_mod, Nat.mod_eq_of_lt hiN]
    rw [List.map_congr_left hmapc, List.map_id]
    rfl

/-- Structure of one full cycle: the concatenation, over rounds
`1..rounds`, of the per-round blocks. -/
theorem cycleList_eq_flatMap (w : List ℤ) (M : ℤ) (hN : 0 < w.length) :
    cycleList w M = (List.range M.toNat).flatMap (roundBlock w) := by
  unfold cycleList validList
  have hcong : List.filter (validB w M) (List.range' 0 (w.length * M.toNat)) =
      List.filter (fun p => decide (((p / w.length : ℕ) : ℤ) + 1 ≤ w.getD (p % w.length) 0))
        (List.range' 0 (w.length * M.toNat)) := by
    apply List.filter_congr
    intro x hx
    have hmem := List.mem_range'_1.mp hx
    exact validB_eq_simple w M x (by omega)
  rw [hcong]
  exact filter_simple_chunks w hN M.toNat

/-- Occurrences of `i` in `range n`: one when `i < n`, none otherwise. -/
theorem count_range_eq (i : ℕ) : ∀ n, (List.range n).count i = if i < n then 1 else 0 := by
  intro n
  induction n with
  | zero => simp
  | succ n ihn =>
    rw [List.range_succ, List.count_append, ihn]
    by_cases h : i = n
    · subst h
      rw [if_neg (lt_irrefl i), if_pos (Nat.lt_succ_self i)]
      simp
    · have hc : List.count i [n] = 0 := by simp [List.count_singleton', h]
      rw [hc]
      by_cases h2 : i < n
      · rw [if_pos h2, if_pos (by omega)]
      · rw [if_neg h2, if_neg (by omega)]

/-- Occurrences of slot `i` in the block of round `r + 1`. -/
theorem count_roundBlock (w : List ℤ) (i r : ℕ) :
    (roundBlock w r).count i =
      if i < w.length ∧ ((r : ℤ) + 1 ≤ w.getD i 0) then 1 else 0 := by
  unfold roundBlock
  by_cases hv : (r : ℤ) + 1 ≤ w.getD i 0
  · have hstep : List.count i ((List.range w.length).filter
        (fun j => decide ((r : ℤ) + 1 ≤ w.getD j 0))) = List.count i (List.range w.length) :=
      List.count_filter (by exact decide_eq_true hv)
    rw [hstep, count_range_eq]
    by_cases hlt : i < w.length
    · rw [if_pos hlt, if_pos ⟨hlt, hv⟩]
    · rw [if_neg hlt, if_neg (fun hc => hlt hc.1)]
  · have hnm : i ∉ (List.range w.length).filter (fun j => decide ((r : ℤ) + 1 ≤ w.getD j 0)) := by
      intro hmem
      have hpa := List.of_mem_filter hmem
      exact hv (of_decide_eq_true hpa)
    rw [List.count_eq_zero.mpr hnm, if_neg (fun hc => hv hc.2)]

/-- Sum of a 0/1 indicator of `r < t` over `range R`. -/
theorem sum_indicator (t : ℕ) : ∀ R, ((List.range R).map
    (fun r => if r < t then (1 : ℕ) else 0)).sum = min t R := by
  intro R
  induction R with
  | zero => simp
  | succ R ihR =>
    rw [List.range_succ, List.map_append, List.sum_append, ihR]
    have hsng : (List.map (fun r => if r < t then (1 : ℕ) else 0) [R]).sum =
        if R < t then 1 else 0 := by simp
    rw [hsng]
    by_cases h : R < t
    · rw [if_pos h]; omega
    · rw [if_neg h]; omega

/-- In one full cycle, slot `i` is emitted exactly `weight i` times
(weights nonnegative and bounded by `rounds`). -/
theorem count_cycleList (w : List ℤ) (M : ℤ) (hN : 0 < w.length)
    (hnn : ∀ x ∈ w, 0 ≤ x) (hmax : ∀ y ∈ w, y ≤ M) (i : ℕ) (hi : i < w.length) :
    (cycleList w M).count i = (w.getD i 0).toNat := by
  rw [cycleList_eq_flatMap w M hN, List.count_flatMap]
  have hwi : w.getD i 0 ∈ w := by
    rw [List.getD_eq_getElem w 0 hi]
    exact List.getElem_mem hi
  have h0 : 0 ≤ w.getD i 0 := hnn _ hwi
  have hle : w.getD i 0 ≤ M := hmax _ hwi
  have hcongr : List.map (List.count i ∘ roundBlock w) (List.range M.toNat) =
      List.map (fun r => if r < (w.getD i 0).toNat then 1 else 0) (List.range M.toNat) := by
    apply List.map_congr_left
    intro r hr
    simp only [Function.comp]
    rw [count_roundBlock]
    by_cases hc : (r : ℤ) + 1 ≤ w.getD i 0
    · rw [if_pos ⟨hi, hc⟩, if_pos (by omega)]
    · rw [if_neg (fun hcc => hc hcc.2), if_neg (by omega)]
  rw [hcongr, sum_indicator]
  omega

end RR

namespace RR

/-- C5: For every fixed weight vector with all entries nonnegative and
`rounds = max(weight) ≥ 1`, one full cycle of the selector starting at
slot 0 of round 1 emits, round after round, exactly the slots whose
weight reaches that round; slot `i` is emitted exactly `weight i` times
over the cycle, and each round block contains each slot at most once
(the emissions are interleaved across rounds, not consecutive runs). -/
theorem dispatch_full_cycle (w : List ℤ) (M : ℤ) (hne : w ≠ [])
    (hnn : ∀ x ∈ w, 0 ≤ x) (hmax : slicesMax w = some M) (hM : 1 ≤ M) :
    ∃ s', dispatchN (cycleList w M).length
        { weights := w, rounds := M, currIndex := 0, currRound := 1 }
        (w.length * M.toNat) = some (cycleList w M, s')
      ∧ cycleList w M = (List.range M.toNat).flatMap (roundBlock w)
      ∧ (∀ i, i < w.length → (cycleList w M).count i = (w.getD i 0).toNat)
      ∧ (∀ r i, (roundBlock w r).count i ≤ 1) := by
  have hN : 0 < w.length := List.length_pos.mpr hne
  obtain ⟨s', hs'⟩ := dispatchN_posState w M hN hM (w.length * M.toNat) 0 (le_refl _)
  have hstart : posState w M 0 =
      { weights := w, rounds := M, currIndex := 0, currRound := 1 } := by
    unfold posState
    simp
  rw [hstart] at hs'
  refine ⟨s', ?_, cycleList_eq_flatMap w M hN, ?_, ?_⟩
  · have hlen : (cycleList w M).length = (validList w M 0 (w.length * M.toNat)).length := by
      unfold cycleList
      exact List.length_map _ _
    rw [hlen]
    exact hs'
  · intro i hi
    exact count_cycleList w M hN hnn (slicesMax_spec hmax).2 i hi
  · intro r i
    rw [count_roundBlock]
    by_cases hc : i < w.length ∧ ((r : ℤ) + 1 ≤ w.getD i 0)
    · rw [if_pos hc]
    · rw [if_neg hc]
      exact Nat.zero_le 1

/-- With both weights zero and the cursor wrapped back to round 1, the
scan loop of `Dispatch` never finds an emission slot: the round resets
to 1 on every wrap (never to 0), so no fuel bound suffices. -/
theorem dispatchFuel_allZero_none : ∀ (fuel i : ℕ), i ≤ 1 →
    dispatchFuel fuel { weights := [0, 0], rounds := 0, currIndex := i, currRound := 1 } =
      none := by
  intro fuel
  induction fuel with
  | zero => intro i _; rfl
  | succ fuel ih =>
    intro i hi
    have hcase : i = 0 ∨ i = 1 := by omega
    rcases hcase with h | h
    · subst h
      have hred : dispatchFuel (fuel + 1)
          { weights := [0, 0], rounds := 0, currIndex := 0, currRound := 1 } =
          dispatchFuel fuel { weights := [0, 0], rounds := 0, currIndex := 1, currRound := 1 } :=
        rfl
      rw [hred]
      exact ih 1 (by omega)
    · subst h
      have hred : dispatchFuel (fuel + 1)
          { weights := [0, 0], rounds := 0, currIndex := 1, currRound := 1 } =
          dispatchFuel fuel { weights := [0, 0], rounds := 0, currIndex := 0, currRound := 1 } :=
        rfl
      rw [hred]
      exact ih 0 (by omega)

/-- C2 (refuted by the code): a fresh selector over the all-zero weight
vector `[0, 0]` serves exactly one pass of `Dispatch` calls (round 0),
after which the cursor wraps to round 1; the next `Dispatch` call then
scans forever — no fuel bound suffices — instead of returning a valid
index, because the code has no fallback treating all-zero weights as 1. -/
theorem dispatch_allZero_diverges :
    dispatchN 2 (NewWeightedRoundRobin [0, 0]) 1 =
      some ([0, 1], { weights := [0, 0], rounds := 0, currIndex := 0, currRound := 1 })
    ∧ ∀ fuel : ℕ,
      dispatchFuel fuel { weights := [0, 0], rounds := 0, currIndex := 0, currRound := 1 } =
        none := by
  constructor
  · decide
  · intro fuel
    exact dispatchFuel_allZero_none fuel 0 (by omega)

/-- Stepping a fresh (round 0) selector: with nonnegative weights every
slot passes the round-0 test, so from slot `i` the next `N - i` calls
emit `i, i+1, ..., N-1` and leave the cursor at slot 0 of round 1. -/
theorem dispatchN_round_zero (w : List ℤ) (hnn : ∀ x ∈ w, 0 ≤ x) :
    ∀ (k i : ℕ), i < w.length → k = w.length - i →
      dispatchN k { weights := w, rounds := 0, currIndex := i, currRound := 0 } 1 =
        some (List.range' i k,
          { weights := w, rounds := 0, currIndex := 0, currRound := 1 }) := by
  intro k
  induction k with
  | zero => intro i hi hk; exact absurd hk (by omega)
  | succ k ihk =>
    intro i hi hk
    have hsome : w[i]? = some w[i] := List.getElem?_eq_getElem hi
    have h0 : (0 : ℤ) ≤ w[i] := hnn _ (List.getElem_mem hi)
    rw [dispatchN, dispatchFuel]
    have hw : ({ weights := w, rounds := 0, currIndex := i, currRound := 0 } :
        WeightedRoundRobin).weights = w := rfl
    have hidx : ({ weights := w, rounds := 0, currIndex := i, currRound := 0 } :
        WeightedRoundRobin).currIndex = i := rfl
    have hrnd : ({ weights := w, rounds := 0, currIndex := i, currRound := 0 } :
        WeightedRoundRobin).currRound = 0 := rfl
    rw [hw, hidx, hrnd, hsome, Option.some_bind]
    rw [if_pos h0]
    by_cases hlast : i + 1 ≥ w.length
    · have hadv : advanceIndex { weights := w, rounds := 0, currIndex := i, currRound := 0 } =
          { weights := w, rounds := 0, currIndex := 0, currRound := 1 } := by
        unfold advanceIndex
        rw [if_pos hlast]
        simp
      rw [hadv]
      have hk0 : k = 0 := by omega
      subst hk0
      rfl
    · have hadv : advanceIndex { weights := w, rounds := 0, currIndex := i, currRound := 0 } =
          { weights := w, rounds := 0, currIndex := i + 1, currRound := 0 } := by
        unfold advanceIndex
        rw [if_neg hlast]
      rw [hadv, Option.some_bind, ihk (i + 1) (by omega) (by omega), List.range'_succ]
      rfl

/-- C10: a freshly constructed selector starts at `currRound = 0`, and
its first `N` `Dispatch` calls emit `0, 1, ..., N-1` in order for every
nonnegative weight vector — zero weights included — because every
nonnegative weight passes the round-0 test; the cursor then sits at
slot 0 of round 1, where the 1-based round structure takes over. -/
theorem fresh_selector_first_pass (w : List ℤ) (hnn : ∀ x ∈ w, 0 ≤ x) (hne : w ≠ []) :
    (NewWeightedRoundRobin w).currRound = 0 ∧
    dispatchN w.length (NewWeightedRoundRobin w) 1 =
      some (List.range w.length,
        { weights := w, rounds := 0, currIndex := 0, currRound := 1 }) := by
  have hN : 0 < w.length := List.length_pos.mpr hne
  refine ⟨rfl, ?_⟩
  rw [List.range_eq_range']
  exact dispatchN_round_zero w hnn w.length 0 hN (by omega)
end RR

namespace LB

/-- Configuration of the load balancer (lb.go `Config`). Durations: the
`BackoffUnit` is kept in nanoseconds (Go `time.Duration`), and the
update interval by its value in seconds (`UpdateInterval.Seconds()`),
which is the only way the estimator consumes it. `BackoffMaxExponent`
is a natural number: the shift `1 << exp` requires a nonnegative
exponent (a negative one panics in Go). -/
structure Config where
  BackoffMaxExponent : ℕ
  BackoffUnit : ℤ
  UpdateIntervalSeconds : ℚ
  SmoothingFactor : ℚ
  ExplorationRate : ℚ
  AIMDIncrease : ℚ
  AIMDDecreaseFactor : ℚ
deriving DecidableEq, Repr

/-- The default configuration installed by `NewLoadBalancer`:
100 ms = 10^8 ns backoff unit and a 1 s update interval. -/
def defaultConfig : Config :=
  { BackoffMaxExponent := 10, BackoffUnit := 100000000, UpdateIntervalSeconds := 1,
    SmoothingFactor := 1/2, ExplorationRate := 1/10, AIMDIncrease := 1/10,
    AIMDDecreaseFactor := 9/10 }

/-- Embedding of `(*LoadBalancer).backoff`: the sleep duration (in
nanoseconds) of retry attempt `i` is `BackoffUnit * (1 << exp)` with
`exp = min(BackoffMaxExponent, i)`; the shift `1 << exp` is `2 ^ exp`. -/
def backoff (cfg : Config) (i : ℕ) : ℤ :=
  cfg.BackoffUnit * 2 ^ (min cfg.BackoffMaxExponent i)

/-- Embedding of the per-handler body of `(*LoadBalancer).updateLoads`:
from this tick's counter readings `calls` and `rejects` and the current
capacity estimate, compute the new capacity estimate. The successive
rebindings of `cap` mirror the successive in-place mutations of
`l.caps[i]`. -/
def updateLoadsCap (cfg : Config) (calls rejects : ℕ) (cap : ℚ) : ℚ :=
  let cap := if calls > 0 then cap + cfg.AIMDIncrease else cap
  let cap := if rejects > 0 then cap * cfg.AIMDDecreaseFactor else cap
  let cap := if calls > 0 ∨ rejects > 0 then
      cfg.SmoothingFactor * ((calls : ℚ) / cfg.UpdateIntervalSeconds)
        + (1 - cfg.SmoothingFactor) * cap
    else cap
  let cap := if calls = 0 ∧ rejects = 0 then cap * (99 / 100) else cap
  max cap (1 / 10)

/-- Embedding of `(*LoadBalancer).updateLoads`: apply the per-handler
update to every capacity and reset both counter arrays to zero (the
three slices all have length `N` = number of handlers). -/
def updateLoads (cfg : Config) (caps : List ℚ) (calls rejections : List ℕ) :
    List ℚ × List ℕ × List ℕ :=
  ((List.range caps.length).map fun i =>
      updateLoadsCap cfg (calls.getD i 0) (rejections.getD i 0) (caps.getD i 0),
    List.replicate caps.length 0, List.replicate caps.length 0)

/-- Embedding of the weight computation in `(*LoadBalancer).updateWeights`:
`totalCap` is the sum of all capacities and each weight is
`int(cap / totalCap * 100)`; on the nonnegative operands arising here,
Go's truncation toward zero is the floor. -/
def computeWeights (caps : List ℚ) : List ℤ :=
  caps.map fun c => ⌊c / caps.sum * 100⌋

/-- Embedding of `(*LoadBalancer).updateWeights`: recompute `totalCap`
and the weight vector and install them in the selector; `none` models
the `slices.Max` panic on an empty weight vector. -/
def updateWeights (caps : List ℚ) (wrr : RR.WeightedRoundRobin) :
    Option (ℚ × RR.WeightedRoundRobin) :=
  (RR.UpdateWeights wrr (computeWeights caps)).map fun w => (caps.sum, w)

/-- The constructor-visible state of a balancer: capacity estimates,
their sum, and the selector (the handlers' dispatch closures are opaque
and do not influence this state). -/
structure LoadBalancerState where
  caps : List ℚ
  totalCap : ℚ
  wrr : RR.WeightedRoundRobin
deriving DecidableEq, Repr

/-- Embedding of `NewLoadBalancer` applied to the handlers' `EstCap`
hints: initial capacities `max(EstCap, 1)`, a selector over an all-zero
weight vector, then one `updateWeights`; `none` models the `slices.Max`
panic reached from an empty handler list. -/
def NewLoadBalancer (estCaps : List ℚ) : Option LoadBalancerState :=
  let caps := estCaps.map fun e => max e 1
  let wrr0 := RR.NewWeightedRoundRobin (List.replicate estCaps.length 0)
  (updateWeights caps wrr0).map fun tw => { caps := caps, totalCap := tw.1, wrr := tw.2 }

/-- Outcome of one handler invocation as the balancer distinguishes it:
success (`err = nil`), the `ErrExceedCap` sentinel (matched through
`errors.Is`), or any other error. -/
inductive HandlerResult where
  | success
  | exceedCap
  | otherError
deriving DecidableEq, Repr

/-- Result of a whole `tryDispatch` call: the context's cancellation
error, or the final handler result forwarded verbatim. -/
inductive TryResult where
  | ctxErr
  | handlerResult (h : HandlerResult)
deriving DecidableEq, Repr

/-- Embedding of `(*LoadBalancer).tryDispatch` for the chosen index.
The retry loop is driven by two oracles: `cancelled k` is whether the
`select` of iteration `k` observes a cancelled context, and `handler k`
is the result of the `k`-th invocation of the chosen handler. The two
accumulators count the increments applied to `calls[index]` and
`rejections[index]`; `fuel` bounds the unbounded Go loop (`none` = the
loop is still running). As in the source, `rejections` is incremented
inside the loop on each capacity-exceeded result, and the final `calls`
increment after the loop fires on every non-`ErrExceedCap` exit. -/
def tryDispatchGo (cancelled : ℕ → Bool) (handler : ℕ → HandlerResult) :
    ℕ → ℕ → ℕ → ℕ → Option (TryResult × ℕ × ℕ)
  | 0, _, _, _ => none
  | fuel + 1, k, c, r =>
    if cancelled k then some (TryResult.ctxErr, c, r)
    else if handler k = HandlerResult.exceedCap then
      tryDispatchGo cancelled handler fuel (k + 1) c (r + 1)
    else some (TryResult.handlerResult (handler k), c + 1, r)

end LB

namespace LB

/-- Complete characterization of a finished `tryDispatch` run starting
at iteration `k0` with accumulators `c0`, `r0`: there is a `k ≥ k0`
such that every earlier iteration saw an uncancelled context and a
capacity-exceeded result (each bumping `rejections` once), and the run
ended at iteration `k` either on an observed cancellation (no `calls`
increment) or on a non-capacity-exceeded handler result (one `calls`
increment — also for errors). -/
theorem tryDispatchGo_spec (cancelled : ℕ → Bool) (handler : ℕ → HandlerResult) :
    ∀ (fuel k0 c0 r0 : ℕ) (out : TryResult) (c r : ℕ),
      tryDispatchGo cancelled handler fuel k0 c0 r0 = some (out, c, r) →
      ∃ k, k0 ≤ k ∧ r = r0 + (k - k0) ∧
        (∀ j, k0 ≤ j → j < k → cancelled j = false ∧ handler j = HandlerResult.exceedCap) ∧
        ((out = TryResult.ctxErr ∧ cancelled k = true ∧ c = c0) ∨
         (cancelled k = false ∧ handler k ≠ HandlerResult.exceedCap ∧
           out = TryResult.handlerResult (handler k) ∧ c = c0 + 1)) := by
  intro fuel
  induction fuel with
  | zero =>
    intro k0 c0 r0 out c r h
    exact Option.noConfusion h
  | succ fuel ih =>
    intro k0 c0 r0 out c r h
    rw [tryDispatchGo] at h
    by_cases hk : cancelled k0 = true
    · rw [if_pos hk] at h
      injection h with h1
      injection h1 with ha hb
      injection hb with hb1 hb2
      subst ha
      subst hb1
      subst hb2
      refine ⟨k0, le_refl _, by omega, ?_, Or.inl ⟨rfl, hk, rfl⟩⟩
      intro j hj1 hj2
      exact absurd hj2 (by omega)
    · rw [if_neg hk] at h
      have hkf : cancelled k0 = false := by
        cases hcc : cancelled k0
        · rfl
        · exact absurd hcc hk
      by_cases hh : handler k0 = HandlerResult.exceedCap
      · rw [if_pos hh] at h
        obtain ⟨k, hk1, hk2, hk3, hk4⟩ := ih (k0 + 1) c0 (r0 + 1) out c r h
        refine ⟨k, by omega, by omega, ?_, hk4⟩
        intro j hj1 hj2
        by_cases hjk : j = k0
        · subst hjk
          exact ⟨hkf, hh⟩
        · exact hk3 j (by omega) hj2
      · rw [if_neg hh] at h
        injection h with h1
        injection h1 with ha hb
        injection hb with hb1 hb2
        subst ha
        subst hb1
        subst hb2
        refine ⟨k0, le_refl _, by omega, ?_, Or.inr ⟨hkf, hh, rfl, rfl⟩⟩
        intro j hj1 hj2
        exact absurd hj2 (by omega)

/-- C1 (counterexample): a handler error other than the
capacity-exceeded sentinel does increment `calls[index]`: with a
never-cancelled context and a handler that immediately returns some
other error, the dispatch returns that error verbatim — an outcome
that is not a success — yet one `calls` increment is recorded. -/
theorem tryDispatch_otherError_counts_call :
    tryDispatchGo (fun _ => false) (fun _ => HandlerResult.otherError) 1 0 0 0 =
      some (TryResult.handlerResult HandlerResult.otherError, 1, 0)
    ∧ HandlerResult.otherError ≠ HandlerResult.success ∧ (1 : ℕ) ≠ 0 := by
  exact ⟨rfl, by decide, by decide⟩

/-- C1 (amended): in every finished `tryDispatch` run, each
capacity-exceeded result increments `rejections[index]` exactly once
(the total equals the number of capacity-exceeded results observed),
and `calls[index]` is incremented exactly once if and only if the loop
exits with a non-capacity-exceeded handler result — success *or* any
other error — while a context-cancellation exit increments neither. -/
theorem tryDispatch_counter_discipline (cancelled : ℕ → Bool)
    (handler : ℕ → HandlerResult) (fuel : ℕ) (out : TryResult) (c r : ℕ)
    (h : tryDispatchGo cancelled handler fuel 0 0 0 = some (out, c, r)) :
    ∃ k, r = k ∧
      (∀ j, j < k → cancelled j = false ∧ handler j = HandlerResult.exceedCap) ∧
      ((out = TryResult.ctxErr ∧ cancelled k = true ∧ c = 0) ∨
       (cancelled k = false ∧ handler k ≠ HandlerResult.exceedCap ∧
         out = TryResult.handlerResult (handler k) ∧ c = 1)) := by
  obtain ⟨k, hk1, hk2, hk3, hk4⟩ := tryDispatchGo_spec cancelled handler fuel 0 0 0 out c r h
  refine ⟨k, by omega, fun j hj => hk3 j (by omega) hj, ?_⟩
  rcases hk4 with h4 | h4
  · exact Or.inl ⟨h4.1, h4.2.1, by omega⟩
  · exact Or.inr ⟨h4.1, h4.2.1, h4.2.2.1, by omega⟩

/-- C8: a dispatch whose context is already cancelled at the first
check returns the cancellation result with both counters untouched;
and every context-cancelled dispatch leaves `calls` untouched, with
`rejections` incremented once per capacity-exceeded result observed
before the cancellation. -/
theorem tryDispatch_cancellation (cancelled : ℕ → Bool) (handler : ℕ → HandlerResult)
    (fuel : ℕ) (out : TryResult) (c r : ℕ)
    (h : tryDispatchGo cancelled handler fuel 0 0 0 = some (out, c, r)) :
    (cancelled 0 = true → out = TryResult.ctxErr ∧ c = 0 ∧ r = 0) ∧
    (out = TryResult.ctxErr → c = 0 ∧
      ∃ k, r = k ∧ ∀ j, j < k → handler j = HandlerResult.exceedCap) := by
  obtain ⟨k, hk1, hk2, hk3, hk4⟩ := tryDispatchGo_spec cancelled handler fuel 0 0 0 out c r h
  constructor
  · intro hc0
    have hk0 : k = 0 := by
      by_contra hne
      have hcf := (hk3 0 (by omega) (by omega)).1
      rw [hc0] at hcf
      exact Bool.noConfusion hcf
    subst hk0
    rcases hk4 with h4 | h4
    · exact ⟨h4.1, by omega, by omega⟩
    · rw [h4.1] at hc0
      exact Bool.noConfusion hc0
  · intro hout
    rcases hk4 with h4 | h4
    · exact ⟨by omega, k, by omega, fun j hj => (hk3 j (by omega) hj).2⟩
    · rw [hout] at h4
      exact absurd h4.2.2.1 (by simp)

end LB

namespace LB

/-- C4: on an estimator tick, for every handler index `i`, the new
capacity is the staged composition prescribed by the code — AIMD
additive increase when `calls > 0`, then multiplicative decrease when
`rejections > 0`, then exponential smoothing toward
`calls / update_interval_seconds` when either counter is positive,
idle decay by 0.99 when both are zero, and a final clamp at 0.1 — and
both counter arrays are reset to zero. -/
theorem updateLoads_tick (cfg : Config) (caps : List ℚ) (callsL rejsL : List ℕ) (i : ℕ)
    (hi : i < caps.length) :
    (updateLoads cfg caps callsL rejsL).2.1 = List.replicate caps.length 0 ∧
    (updateLoads cfg caps callsL rejsL).2.2 = List.replicate caps.length 0 ∧
    (updateLoads cfg caps callsL rejsL).1.getD i 0 =
      (if callsL.getD i 0 > 0 ∧ rejsL.getD i 0 > 0 then
        max (cfg.SmoothingFactor * ((callsL.getD i 0 : ℚ) / cfg.UpdateIntervalSeconds)
          + (1 - cfg.SmoothingFactor)
            * ((caps.getD i 0 + cfg.AIMDIncrease) * cfg.AIMDDecreaseFactor)) (1 / 10)
      else if callsL.getD i 0 > 0 then
        max (cfg.SmoothingFactor * ((callsL.getD i 0 : ℚ) / cfg.UpdateIntervalSeconds)
          + (1 - cfg.SmoothingFactor) * (caps.getD i 0 + cfg.AIMDIncrease)) (1 / 10)
      else if rejsL.getD i 0 > 0 then
        max (cfg.SmoothingFactor * ((callsL.getD i 0 : ℚ) / cfg.UpdateIntervalSeconds)
          + (1 - cfg.SmoothingFactor) * (caps.getD i 0 * cfg.AIMDDecreaseFactor)) (1 / 10)
      else max (caps.getD i 0 * (99 / 100)) (1 / 10)) := by
  refine ⟨rfl, rfl, ?_⟩
  have hg : (updateLoads cfg caps callsL rejsL).1.getD i 0 =
      updateLoadsCap cfg (callsL.getD i 0) (rejsL.getD i 0) (caps.getD i 0) := by
    unfold updateLoads
    rw [List.getD_eq_getElem _ 0 (by simpa using hi), List.getElem_map, List.getElem_range]
  rw [hg]
  unfold updateLoadsCap
  by_cases hc : callsL.getD i 0 > 0 <;> by_cases hr : rejsL.getD i 0 > 0
  · simp only [if_pos hc, if_pos hr, if_pos (Or.inl hc),
      if_neg (show ¬(callsL.getD i 0 = 0 ∧ rejsL.getD i 0 = 0) by omega),
      if_pos (And.intro hc hr)]
  · simp only [if_pos hc, if_neg hr, if_pos (Or.inl hc),
      if_neg (show ¬(callsL.getD i 0 = 0 ∧ rejsL.getD i 0 = 0) by omega),
      if_neg (show ¬(callsL.getD i 0 > 0 ∧ rejsL.getD i 0 > 0) by omega)]
  · simp only [if_neg hc, if_pos hr, if_pos (Or.inr hr),
      if_neg (show ¬(callsL.getD i 0 = 0 ∧ rejsL.getD i 0 = 0) by omega),
      if_neg (show ¬(callsL.getD i 0 > 0 ∧ rejsL.getD i 0 > 0) by omega)]
  · simp only [if_neg hc, if_neg hr,
      if_neg (show ¬(callsL.getD i 0 > 0 ∨ rejsL.getD i 0 > 0) by omega),
      if_pos (show callsL.getD i 0 = 0 ∧ rejsL.getD i 0 = 0 by omega),
      if_neg (show ¬(callsL.getD i 0 > 0 ∧ rejsL.getD i 0 > 0) by omega)]

/-- C6: every capacity produced by a tick is at least 0.1, whatever the
configuration, counters and previous capacities: the final clamp
`max(cap, 0.1)` makes the bound an invariant of every tick. -/
theorem updateLoads_cap_lower_bound (cfg : Config) (caps : List ℚ)
    (callsL rejsL : List ℕ) :
    ∀ x ∈ (updateLoads cfg caps callsL rejsL).1, 1 / 10 ≤ x := by
  intro x hx
  obtain ⟨i, hi, hxe⟩ := List.mem_map.mp hx
  rw [← hxe]
  exact le_max_right _ _

/-- C7: the backoff duration of attempt `a` is
`BackoffUnit * 2 ^ min(a, BackoffMaxExponent)`, and once
`a ≥ BackoffMaxExponent` it plateaus at
`BackoffUnit * 2 ^ BackoffMaxExponent`. -/
theorem backoff_formula (cfg : Config) (a : ℕ) :
    backoff cfg a = cfg.BackoffUnit * 2 ^ (min a cfg.BackoffMaxExponent) ∧
    (cfg.BackoffMaxExponent ≤ a →
      backoff cfg a = cfg.BackoffUnit * 2 ^ cfg.BackoffMaxExponent) := by
  constructor
  · unfold backoff
    rw [Nat.min_comm]
  · intro h
    unfold backoff
    rw [Nat.min_eq_left h]

end LB

namespace LB

/-- Sum of pointwise ratios times 100 over a list. -/
theorem sum_map_div_mul (l : List ℚ) (S : ℚ) :
    (l.map (fun c => c / S * 100)).sum = l.sum / S * 100 := by
  induction l with
  | nil => simp
  | cons x xs ih =>
    simp only [List.map_cons, List.sum_cons, ih]
    ring

/-- Subtracting 1 pointwise subtracts the length from the sum. -/
theorem sum_map_sub_one (l : List ℚ) (f : ℚ → ℚ) :
    (l.map (fun c => f c - 1)).sum = (l.map f).sum - l.length := by
  induction l with
  | nil => simp
  | cons x xs ih =>
    simp only [List.map_cons, List.sum_cons, ih, List.length_cons]
    push_cast
    ring

/-- A list of elements that are each at least 1 sums to at least its
length. -/
theorem length_le_sum_of_one_le (l : List ℚ) (h : ∀ x ∈ l, 1 ≤ x) :
    (l.length : ℚ) ≤ l.sum := by
  induction l with
  | nil => simp
  | cons x xs ih =>
    simp only [List.length_cons, List.sum_cons]
    push_cast
    have h1 : 1 ≤ x := h x (List.mem_cons_self x xs)
    have h2 : (xs.length : ℚ) ≤ xs.sum := ih fun y hy => h y (List.mem_cons_of_mem x hy)
    linarith

/-- C3 (counterexample): the capacity vector `[0.9, 0.9, 98.2]` has
every entry at least 0.1, yet the recomputed weights are `[0, 0, 98]`,
whose sum 98 is below the claimed lower bound 99. -/
theorem computeWeights_sum_below_99 :
    (∀ x ∈ ([9/10, 9/10, 491/5] : List ℚ), 1/10 ≤ x) ∧
    computeWeights [9/10, 9/10, 491/5] = [0, 0, 98] ∧
    ¬(99 ≤ (computeWeights ([9/10, 9/10, 491/5] : List ℚ)).sum) := by
  have hsum : ([9/10, 9/10, 491/5] : List ℚ).sum = 100 := by norm_num
  have hw : computeWeights [9/10, 9/10, 491/5] = [0, 0, 98] := by
    unfold computeWeights
    rw [hsum]
    simp only [List.map_cons, List.map_nil]
    have e1 : (9 : ℚ)/10/100*100 = 9/10 := by norm_num
    have e2 : (491 : ℚ)/5/100*100 = 491/5 := by norm_num
    rw [e1, e2]
    have f1 : ⌊(9 : ℚ)/10⌋ = 0 := by
      rw [Int.floor_eq_iff]
      norm_num
    have f2 : ⌊(491 : ℚ)/5⌋ = 98 := by
      rw [Int.floor_eq_iff]
      norm_num
    rw [f1, f2]
  refine ⟨?_, hw, ?_⟩
  · intro x hx
    simp only [List.mem_cons, List.not_mem_nil, or_false] at hx
    rcases hx with h | h | h <;> rw [h] <;> norm_num
  · rw [hw]
    norm_num

/-- C3 (amended): after a weight recomputation from capacities that are
all at least 0.1, every weight equals `⌊cap i / totalCap * 100⌋` and
lies in `[0, 100]`, and the weights sum to at most 100 and strictly
more than `100 - N` (rounding slack strictly below one per handler);
the claimed lower bound 99 fails, see the counterexample. -/
theorem computeWeights_bounds (caps : List ℚ) (hne : caps ≠ [])
    (hcap : ∀ x ∈ caps, 1/10 ≤ x) :
    (∀ i, i < caps.length →
      (computeWeights caps).getD i 0 = ⌊caps.getD i 0 / caps.sum * 100⌋) ∧
    (∀ v ∈ computeWeights caps, 0 ≤ v ∧ v ≤ 100) ∧
    100 - (caps.length : ℤ) < (computeWeights caps).sum ∧
    (computeWeights caps).sum ≤ 100 := by
  have hpos : ∀ x ∈ caps, 0 < x := fun x hx => lt_of_lt_of_le (by norm_num) (hcap x hx)
  have hS : 0 < caps.sum := List.sum_pos caps hpos hne
  have hratio : ∀ c ∈ caps, 0 < c / caps.sum * 100 ∧ c / caps.sum * 100 ≤ 100 := by
    intro c hc
    constructor
    · have := div_pos (hpos c hc) hS
      linarith
    · have hle : c ≤ caps.sum :=
        List.single_le_sum (fun x hx => le_of_lt (hpos x hx)) c hc
      have h1 : c / caps.sum ≤ 1 := (div_le_one hS).mpr hle
      linarith
  have hfloor100 : (⌊(100 : ℚ)⌋ : ℤ) = 100 := by
    exact_mod_cast Int.floor_intCast 100
  have hsum_ratio : (caps.map (fun c => c / caps.sum * 100)).sum = 100 := by
    rw [sum_map_div_mul, div_self (ne_of_gt hS), one_mul]
  have hcast : ((computeWeights caps).sum : ℚ) =
      (caps.map (fun c => ((⌊c / caps.sum * 100⌋ : ℤ) : ℚ))).sum := by
    unfold computeWeights
    rw [Int.cast_list_sum, List.map_map]
    rfl
  refine ⟨?_, ?_, ?_, ?_⟩
  · intro i hi
    unfold computeWeights
    rw [List.getD_eq_getElem _ 0 (by simpa using hi), List.getElem_map,
      List.getD_eq_getElem caps 0 hi]
  · intro v hv
    obtain ⟨c, hc, hce⟩ := List.mem_map.mp hv
    rw [← hce]
    constructor
    · exact Int.floor_nonneg.mpr (le_of_lt (hratio c hc).1)
    · have := Int.floor_le_floor (hratio c hc).2
      rw [hfloor100] at this
      exact this
  · have hlt : ((100 : ℚ) - caps.length) < ((computeWeights caps).sum : ℚ) := by
      rw [hcast]
      have hsub : (caps.map (fun c => (fun c => c / caps.sum * 100) c - 1)).sum =
          100 - caps.length := by
        rw [sum_map_sub_one, hsum_ratio]
      calc (100 : ℚ) - caps.length
          = (caps.map (fun c => (fun c => c / caps.sum * 100) c - 1)).sum := hsub.symm
        _ < (caps.map (fun c => ((⌊c / caps.sum * 100⌋ : ℤ) : ℚ))).sum := by
            apply List.sum_lt_sum
            · intro c hc
              have := Int.sub_one_lt_floor (c / caps.sum * 100)
              linarith
            · obtain ⟨c, hc⟩ := List.exists_mem_of_ne_nil caps hne
              refine ⟨c, hc, ?_⟩
              have := Int.sub_one_lt_floor (c / caps.sum * 100)
              linarith
    exact_mod_cast hlt
  · have hle : ((computeWeights caps).sum : ℚ) ≤ 100 := by
      rw [hcast]
      calc (caps.map (fun c => ((⌊c / caps.sum * 100⌋ : ℤ) : ℚ))).sum
          ≤ (caps.map (fun c => c / caps.sum * 100)).sum :=
            List.sum_le_sum (fun c hc => Int.floor_le (c / caps.sum * 100))
        _ = 100 := hsum_ratio
    exact_mod_cast hle

/-- A nonempty list of weights has a `slices.Max`. -/
theorem slicesMax_of_ne_nil {l : List ℤ} (h : l ≠ []) :
    ∃ m, RR.slicesMax l = some m := by
  cases l with
  | nil => exact absurd rfl h
  | cons x xs => exact ⟨xs.foldl max x, rfl⟩

/-- C9: constructing a balancer with zero handlers panics — the empty
weight vector reaches `slices.Max`, modelled by `none` — while every
nonempty handler list yields a balancer whose `totalCap` is at least
the number of handlers (each initial capacity is `max(EstCap, 1) ≥ 1`),
so the weight division is by a positive total. -/
theorem newLoadBalancer_empty_nonempty :
    NewLoadBalancer [] = none ∧
    ∀ estCaps : List ℚ, estCaps ≠ [] →
      ∃ lb, NewLoadBalancer estCaps = some lb ∧
        (estCaps.length : ℚ) ≤ lb.totalCap ∧ 0 < lb.totalCap := by
  constructor
  · rfl
  · intro estCaps hne
    have hcne : estCaps.map (fun e => max e 1) ≠ [] := by
      rw [ne_eq, List.map_eq_nil]
      exact hne
    have hwne : computeWeights (estCaps.map (fun e => max e 1)) ≠ [] := by
      unfold computeWeights
      rw [ne_eq, List.map_eq_nil]
      exact hcne
    obtain ⟨m, hm⟩ := slicesMax_of_ne_nil hwne
    have hone : ∀ x ∈ estCaps.map (fun e => max e 1), 1 ≤ x := by
      intro x hx
      obtain ⟨e, _, he⟩ := List.mem_map.mp hx
      rw [← he]
      exact le_max_right e 1
    have hlen : ((estCaps.map (fun e => max e 1)).length : ℚ) ≤
        (estCaps.map (fun e => max e 1)).sum :=
      length_le_sum_of_one_le _ hone
    rw [List.length_map] at hlen
    have hpos : 0 < (estCaps.map (fun e => max e 1)).sum := by
      have h1 : (0 : ℚ) < estCaps.length := by
        have := List.length_pos.mpr hne
        exact_mod_cast this
      linarith
    refine ⟨{ caps := estCaps.map (fun e => max e 1),
              totalCap := (estCaps.map (fun e => max e 1)).sum,
              wrr := { weights := computeWeights (estCaps.map (fun e => max e 1)),
                       rounds := m, currIndex := 0, currRound := 0 } }, ?_, hlen, hpos⟩
    simp only [NewLoadBalancer, updateWeights, RR.UpdateWeights, RR.NewWeightedRoundRobin,
      hm, Option.map_some']

end LB

namespace RR

/-- Witness for the full-cycle theorem at the spec's example weights
`[1, 5, 2]` (rounds = 5). -/
theorem dispatch_full_cycle_witness :
    (([1, 5, 2] : List ℤ) ≠ []) ∧ (∀ x ∈ ([1, 5, 2] : List ℤ), 0 ≤ x) ∧
    slicesMax [1, 5, 2] = some 5 ∧ (1 : ℤ) ≤ 5 ∧
    (∃ s', dispatchN (cycleList [1, 5, 2] 5).length
        { weights := [1, 5, 2], rounds := 5, currIndex := 0, currRound := 1 }
        (([1, 5, 2] : List ℤ).length * (5 : ℤ).toNat) = some (cycleList [1, 5, 2] 5, s')
      ∧ cycleList [1, 5, 2] 5 = (List.range (5 : ℤ).toNat).flatMap (roundBlock [1, 5, 2])
      ∧ (∀ i, i < ([1, 5, 2] : List ℤ).length →
          (cycleList [1, 5, 2] 5).count i = (([1, 5, 2] : List ℤ).getD i 0).toNat)
      ∧ (∀ r i, (roundBlock [1, 5, 2] r).count i ≤ 1)) :=
  ⟨by decide, by decide, by decide, by decide,
    dispatch_full_cycle [1, 5, 2] 5 (by decide) (by decide) (by decide) (by decide)⟩

/-- Witness for the fresh-selector theorem at the weight vector
`[0, 3, 0]` (zero weights included). -/
theorem fresh_selector_first_pass_witness :
    (∀ x ∈ ([0, 3, 0] : List ℤ), 0 ≤ x) ∧ (([0, 3, 0] : List ℤ) ≠ []) ∧
    ((NewWeightedRoundRobin [0, 3, 0]).currRound = 0 ∧
      dispatchN ([0, 3, 0] : List ℤ).length (NewWeightedRoundRobin [0, 3, 0]) 1 =
        some (List.range ([0, 3, 0] : List ℤ).length,
          { weights := [0, 3, 0], rounds := 0, currIndex := 0, currRound := 1 })) :=
  ⟨by decide, by decide, fresh_selector_first_pass [0, 3, 0] (by decide) (by decide)⟩

end RR

namespace LB

/-- Witness for the counter-discipline theorem: one capacity-exceeded
result followed by a success yields one `rejections` increment and one
`calls` increment. -/
theorem tryDispatch_counter_discipline_witness :
    tryDispatchGo (fun _ => false) (fun k => if k = 0 then HandlerResult.exceedCap
        else HandlerResult.success) 2 0 0 0 =
      some (TryResult.handlerResult HandlerResult.success, 1, 1) ∧
    (∃ k, (1 : ℕ) = k ∧
      (∀ j, j < k → (fun _ => false) j = false ∧
        (fun k => if k = 0 then HandlerResult.exceedCap else HandlerResult.success) j =
          HandlerResult.exceedCap) ∧
      ((TryResult.handlerResult HandlerResult.success = TryResult.ctxErr ∧
          (fun _ => false) k = true ∧ (1 : ℕ) = 0) ∨
       ((fun _ => false) k = false ∧
         (fun k => if k = 0 then HandlerResult.exceedCap else HandlerResult.success) k ≠
           HandlerResult.exceedCap ∧
         TryResult.handlerResult HandlerResult.success =
           TryResult.handlerResult ((fun k => if k = 0 then HandlerResult.exceedCap
             else HandlerResult.success) k) ∧ (1 : ℕ) = 1))) :=
  ⟨rfl, tryDispatch_counter_discipline (fun _ => false)
    (fun k => if k = 0 then HandlerResult.exceedCap else HandlerResult.success) 2
    (TryResult.handlerResult HandlerResult.success) 1 1 rfl⟩

/-- Witness for the cancellation theorem: a context cancelled before the
first invocation returns the cancellation with both counters at zero. -/
theorem tryDispatch_cancellation_witness :
    tryDispatchGo (fun _ => true) (fun _ => HandlerResult.success) 1 0 0 0 =
      some (TryResult.ctxErr, 0, 0) ∧
    (((fun _ => true) 0 = true → TryResult.ctxErr = TryResult.ctxErr ∧
        (0 : ℕ) = 0 ∧ (0 : ℕ) = 0) ∧
     (TryResult.ctxErr = TryResult.ctxErr → (0 : ℕ) = 0 ∧
       ∃ k, (0 : ℕ) = k ∧ ∀ j, j < k →
         (fun _ => HandlerResult.success) j = HandlerResult.exceedCap)) :=
  ⟨rfl, tryDispatch_cancellation (fun _ => true) (fun _ => HandlerResult.success) 1
    TryResult.ctxErr 0 0 rfl⟩

/-- Witness for the tick formula at a concrete input: one handler with
capacity 1, three successes and no rejections in the tick. -/
theorem updateLoads_tick_witness :
    (0 < ([(1 : ℚ)] : List ℚ).length) ∧
    ((updateLoads defaultConfig [(1 : ℚ)] [3] [0]).2.1 = List.replicate 1 0 ∧
      (updateLoads defaultConfig [(1 : ℚ)] [3] [0]).2.2 = List.replicate 1 0) :=
  ⟨by decide, ((updateLoads_tick defaultConfig [(1 : ℚ)] [3] [0] 0 (by decide)).1),
    ((updateLoads_tick defaultConfig [(1 : ℚ)] [3] [0] 0 (by decide)).2.1)⟩

/-- Witness for the capacity lower bound: the single capacity produced
by an idle tick on one handler is at least 0.1. -/
theorem updateLoads_cap_lower_bound_witness :
    updateLoadsCap defaultConfig 0 0 1 ∈ (updateLoads defaultConfig [(1 : ℚ)] [0] [0]).1 ∧
    1 / 10 ≤ updateLoadsCap defaultConfig 0 0 1 := by
  have h0 : (0 : ℕ) ∈ List.range ([(1 : ℚ)] : List ℚ).length := List.mem_range.mpr (by decide)
  have hmem := List.mem_map_of_mem
    (fun i => updateLoadsCap defaultConfig (([0] : List ℕ).getD i 0)
      (([0] : List ℕ).getD i 0) (([(1 : ℚ)] : List ℚ).getD i 0)) h0
  exact ⟨hmem, updateLoads_cap_lower_bound defaultConfig [(1 : ℚ)] [0] [0] _ hmem⟩

/-- Witness for the backoff plateau at attempt 12 under the default
configuration (max exponent 10). -/
theorem backoff_formula_witness :
    defaultConfig.BackoffMaxExponent ≤ 12 ∧
    backoff defaultConfig 12 =
      defaultConfig.BackoffUnit * 2 ^ defaultConfig.BackoffMaxExponent :=
  ⟨by decide, (backoff_formula defaultConfig 12).2 (by decide)⟩

/-- Witness for the weight bounds at the capacity vector `[2, 2]`. -/
theorem computeWeights_bounds_witness :
    (([2, 2] : List ℚ) ≠ []) ∧ (∀ x ∈ ([2, 2] : List ℚ), 1/10 ≤ x) ∧
    ((∀ i, i < ([2, 2] : List ℚ).length →
        (computeWeights [2, 2]).getD i 0 =
          ⌊([2, 2] : List ℚ).getD i 0 / ([2, 2] : List ℚ).sum * 100⌋) ∧
      (∀ v ∈ computeWeights [2, 2], 0 ≤ v ∧ v ≤ 100) ∧
      100 - (([2, 2] : List ℚ).length : ℤ) < (computeWeights [2, 2]).sum ∧
      (computeWeights [2, 2]).sum ≤ 100) := by
  have h1 : ([2, 2] : List ℚ) ≠ [] := List.cons_ne_nil 2 [2]
  have h2 : ∀ x ∈ ([2, 2] : List ℚ), 1/10 ≤ x := by
    intro x hx
    simp only [List.mem_cons, List.not_mem_nil, or_false] at hx
    rcases hx with h | h <;> rw [h] <;> norm_num
  exact ⟨h1, h2, computeWeights_bounds [2, 2] h1 h2⟩

/-- Witness for the constructor theorem at the one-handler hint list
`[2]`. -/
theorem newLoadBalancer_witness :
    (([2] : List ℚ) ≠ []) ∧
    (∃ lb, NewLoadBalancer [(2 : ℚ)] = some lb ∧
      ((([2] : List ℚ).length : ℚ) ≤ lb.totalCap ∧ 0 < lb.totalCap)) := by
  have h1 : ([2] : List ℚ) ≠ [] := List.cons_ne_nil 2 []
  obtain ⟨lb, hlb, hb1, hb2⟩ := newLoadBalancer_empty_nonempty.2 [2] h1
  exact ⟨h1, lb, hlb, hb1, hb2⟩

end LB
